import Mathlib

/-!
Shallow embedding of the `sessions` Go package (stackus/sessions): the secure
codec pipeline (`codec.go`), the session proxy (`proxy.go`) and the stores
(`store.go`), together with proofs about the encode/decode pipeline.

Bytes are modelled as `List Nat` with the invariant "every element < 256"
carried as hypotheses where it matters.
-/

/-- Error values of the package (`errors.go` sentinels, plus the raw errors
that bubble up from the standard library and from `errors.Join`). `join`
models `errors.Join(errs...)`. -/
inductive Err where
  | hashKeyNotSet
  | encodedLengthTooLong
  | serializeFailed
  | deserializeFailed
  | hmacInvalid
  | timestampInvalid
  | timestampTooNew
  | timestampExpired
  | creatingBlockCipher
  | generatingIV
  | decryptionFailed
  | noCodecs
  | noResponseWriter
  | invalidSessionType
  | base64DecodeFailed
  | randReadFailed
  | removeFailed
  | serializerErr (code : Nat)
  | join (errs : List Err)

abbrev Bytes := List Nat

/-- The byte value of the separator character that the codec splits tokens on. -/
def barByte : Nat := 124

/-- Take of an append at the length of the left part. -/
theorem take_len_left {α : Type} (l₁ l₂ : List α) : (l₁ ++ l₂).take l₁.length = l₁ := by
  induction l₁ with
  | nil => simp
  | cons x xs ih => simp [List.take, ih]

/-- Drop of an append at the length of the left part. -/
theorem drop_len_left {α : Type} (l₁ l₂ : List α) : (l₁ ++ l₂).drop l₁.length = l₂ := by
  induction l₁ with
  | nil => simp
  | cons x xs ih => simp [List.drop, ih]

/-! ## Base64 (models `base64.URLEncoding` from encoding/base64: URL-safe
alphabet, `=`-padded, canonical). -/

/-- Byte values of the URL-safe base64 alphabet
`A..Z a..z 0..9 - _` (in order). -/
def b64Alphabet : List Nat :=
  [65, 66, 67, 68, 69, 70, 71, 72, 73, 74, 75, 76, 77, 78, 79, 80, 81, 82, 83,
   84, 85, 86, 87, 88, 89, 90,
   97, 98, 99, 100, 101, 102, 103, 104, 105, 106, 107, 108, 109, 110, 111, 112,
   113, 114, 115, 116, 117, 118, 119, 120, 121, 122,
   48, 49, 50, 51, 52, 53, 54, 55, 56, 57, 45, 95]

/-- Index of the first occurrence of `c` in a list, if any. -/
def listIndexOf (c : Nat) : List Nat → Option Nat
  | [] => none
  | x :: xs => if x = c then some 0 else (listIndexOf c xs).map (· + 1)

/-- The alphabet character for a 6-bit value. -/
def b64Char (n : Nat) : Nat := b64Alphabet.getD n 0

/-- The 6-bit value of an alphabet character, if it is one. -/
def b64Value (c : Nat) : Option Nat := listIndexOf c b64Alphabet

/-- Base64 encoding (canonical, `=`-padded), three input bytes per four
output characters. -/
def b64Encode : Bytes → Bytes
  | [] => []
  | [a] => [b64Char (a / 4), b64Char (a % 4 * 16), 61, 61]
  | [a, b] => [b64Char (a / 4), b64Char (a % 4 * 16 + b / 16), b64Char (b % 16 * 4), 61]
  | a :: b :: c :: rest =>
      b64Char (a / 4) :: b64Char (a % 4 * 16 + b / 16) ::
      b64Char (b % 16 * 4 + c / 64) :: b64Char (c % 64) :: b64Encode rest

/-- Base64 decoding: accepts canonical padded base64, errors otherwise
(the exact Go error value, a `CorruptInputError`, is collapsed to
`Err.base64DecodeFailed`). -/
def b64Decode : Bytes → Except Err Bytes
  | [] => .ok []
  | a :: b :: c :: d :: rest =>
      match b64Value a, b64Value b with
      | some va, some vb =>
        if c = 61 then
          if d = 61 ∧ rest = [] then .ok [va * 4 + vb / 16] else .error .base64DecodeFailed
        else
          match b64Value c with
          | some vc =>
            if d = 61 then
              if rest = [] then .ok [va * 4 + vb / 16, vb % 16 * 16 + vc / 4]
              else .error .base64DecodeFailed
            else
              match b64Value d with
              | some vd =>
                match b64Decode rest with
                | .ok tail =>
                    .ok ((va * 4 + vb / 16) :: (vb % 16 * 16 + vc / 4) :: (vc % 4 * 64 + vd) :: tail)
                | .error e => .error e
              | none => .error .base64DecodeFailed
          | none => .error .base64DecodeFailed
      | _, _ => .error .base64DecodeFailed
  | _ => .error .base64DecodeFailed

/-- Looking up the character of a 6-bit value gets the value back. -/
theorem b64Value_b64Char : ∀ n, n < 64 → b64Value (b64Char n) = some n := by decide

/-- Alphabet characters are small (largest is `z` = 122). -/
theorem b64Alphabet_le : ∀ x ∈ b64Alphabet, x ≤ 122 := by decide

/-- The padding character is not produced by `b64Char` on 6-bit values. -/
theorem b64Char_ne_61 : ∀ n, n < 64 → b64Char n ≠ 61 := by decide

/-- Every `b64Char` output is at most 122. -/
theorem b64Char_le (n : Nat) : b64Char n ≤ 122 := by
  by_cases h : n < 64
  · have hb : ∀ m, m < 64 → b64Char m ≤ 122 := by decide
    exact hb n h
  · have hlen : b64Alphabet.length ≤ n := by
      have h64 : b64Alphabet.length = 64 := rfl
      omega
    simp only [b64Char, List.getD]
    rw [List.get?_eq_none.mpr hlen]
    simp

/-- Members of a base64 encoding are alphabet characters or padding, hence
at most 122 or equal to 61; in particular every member is below 256 and is
not the separator byte 124. -/
theorem b64Encode_mem_le {l : Bytes} : ∀ x ∈ b64Encode l, x ≤ 122 ∨ x = 61 := by
  induction l using b64Encode.induct with
  | case1 => simp [b64Encode]
  | case2 a => simp [b64Encode, b64Char_le]
  | case3 a b => simp [b64Encode, b64Char_le]
  | case4 a b c rest ih =>
      simp [b64Encode, b64Char_le]
      exact ih

/-- Base64 output never contains the separator byte. -/
theorem b64Encode_ne_bar {l : Bytes} : ∀ x ∈ b64Encode l, x ≠ barByte := by
  intro x hx
  rcases b64Encode_mem_le x hx with h | h <;> simp only [barByte] <;> omega

/-- Base64 output bytes are below 256. -/
theorem b64Encode_lt_256 {l : Bytes} : ∀ x ∈ b64Encode l, x < 256 := by
  intro x hx
  rcases b64Encode_mem_le x hx with h | h <;> omega

/-- Decoding a canonical encoding recovers the input bytes. -/
theorem b64Decode_b64Encode {l : Bytes} (hl : ∀ x ∈ l, x < 256) :
    b64Decode (b64Encode l) = .ok l := by
  induction l using b64Encode.induct with
  | case1 => simp [b64Encode, b64Decode]
  | case2 a =>
      have ha : a < 256 := hl a (by simp)
      have h1 : a / 4 < 64 := by omega
      have h2 : a % 4 * 16 < 64 := by omega
      simp only [b64Encode, b64Decode, b64Value_b64Char _ h1, b64Value_b64Char _ h2]
      simp
      omega
  | case3 a b =>
      have ha : a < 256 := hl a (by simp)
      have hb : b < 256 := hl b (by simp)
      have h1 : a / 4 < 64 := by omega
      have h2 : a % 4 * 16 + b / 16 < 64 := by omega
      have h3 : b % 16 * 4 < 64 := by omega
      simp only [b64Encode, b64Decode, b64Value_b64Char _ h1, b64Value_b64Char _ h2,
        b64Value_b64Char _ h3]
      simp [b64Char_ne_61 _ h3]
      omega
  | case4 a b c rest ih =>
      have ha : a < 256 := hl a (by simp)
      have hb : b < 256 := hl b (by simp)
      have hc : c < 256 := hl c (by simp)
      have hrest : ∀ x ∈ rest, x < 256 := fun x hx => hl x (by simp [hx])
      have h1 : a / 4 < 64 := by omega
      have h2 : a % 4 * 16 + b / 16 < 64 := by omega
      have h3 : b % 16 * 4 + c / 64 < 64 := by omega
      have h4 : c % 64 < 64 := by omega
      simp only [b64Encode, b64Decode, b64Value_b64Char _ h1, b64Value_b64Char _ h2,
        b64Value_b64Char _ h3, b64Value_b64Char _ h4]
      simp [b64Char_ne_61 _ h3, b64Char_ne_61 _ h4, ih hrest]
      omega

/-! ## Decimal integers (models `fmt.Sprintf("%d", ts)` and
`strconv.ParseInt(s, 10, 64)`). -/

/-- Little-endian base-10 digits with explicit fuel (structurally recursive,
so that concrete tokens evaluate by `rfl`). -/
def natDigitsAux : Nat → Nat → List Nat
  | 0, _ => []
  | _ + 1, 0 => []
  | fuel + 1, n + 1 => ((n + 1) % 10) :: natDigitsAux fuel ((n + 1) / 10)

/-- With enough fuel, `natDigitsAux` agrees with `Nat.digits 10`. -/
theorem natDigitsAux_eq_digits : ∀ (fuel n : Nat), n ≤ fuel →
    natDigitsAux fuel n = Nat.digits 10 n := by
  intro fuel
  induction fuel with
  | zero =>
      intro n hn
      have : n = 0 := by omega
      subst this
      simp [natDigitsAux]
  | succ f ih =>
      intro n hn
      match n with
      | 0 => simp [natDigitsAux]
      | m + 1 =>
          rw [natDigitsAux, Nat.digits_def' (by norm_num : 1 < 10) (Nat.succ_pos m)]
          have hdiv : (m + 1) / 10 ≤ f := by
            have := Nat.div_lt_self (Nat.succ_pos m) (by norm_num : 1 < 10)
            omega
          rw [ih _ hdiv]

/-- Digits of `n` with fuel `n`. -/
theorem natDigitsAux_self (n : Nat) : natDigitsAux n n = Nat.digits 10 n :=
  natDigitsAux_eq_digits n n le_rfl

/-- Decimal digits (ASCII bytes, most significant first) of a natural. -/
def natDecimal (n : Nat) : Bytes :=
  if n = 0 then [48] else (natDigitsAux n n).reverse.map (fun d => d + 48)

/-- `natDecimal` in terms of `Nat.digits`. -/
theorem natDecimal_eq_digits (n : Nat) :
    natDecimal n = if n = 0 then [48] else (Nat.digits 10 n).reverse.map (fun d => d + 48) := by
  rw [natDecimal, natDigitsAux_self]

/-- Decimal rendering of an integer, with a leading `-` when negative
(the output of `%d` for an int64). -/
def intDecimal (i : Int) : Bytes :=
  if i < 0 then 45 :: natDecimal i.natAbs else natDecimal i.natAbs

/-- Whether a byte is an ASCII digit. -/
def isDigitByte (c : Nat) : Bool := decide (48 ≤ c ∧ c ≤ 57)

/-- Value of a big-endian ASCII digit string. -/
def digitsVal (l : Bytes) : Nat := l.foldl (fun acc c => acc * 10 + (c - 48)) 0

/-- Parse an unsigned decimal: at least one byte, all digits. -/
def parseDec (l : Bytes) : Option Nat :=
  if l ≠ [] ∧ l.all isDigitByte = true then some (digitsVal l) else none

/-- Parse a signed decimal in the int64 range, as `strconv.ParseInt(s, 10, 64)`
does: optional sign, at least one digit, overflow is an error. -/
def parseInt64 (l : Bytes) : Option Int :=
  match l with
  | [] => none
  | c :: rest =>
    if c = 45 then
      match parseDec rest with
      | some n => if (n : Int) ≤ 2 ^ 63 then some (-(n : Int)) else none
      | none => none
    else if c = 43 then
      match parseDec rest with
      | some n => if (n : Int) < 2 ^ 63 then some ((n : Int)) else none
      | none => none
    else
      match parseDec (c :: rest) with
      | some n => if (n : Int) < 2 ^ 63 then some ((n : Int)) else none
      | none => none

/-- Folding the parse step over printed digits is Horner evaluation. -/
theorem foldl_digits (ds : List Nat) (a : Nat) :
    (ds.reverse.map (fun d => d + 48)).foldl (fun acc c => acc * 10 + (c - 48)) a
      = a * 10 ^ ds.length + Nat.ofDigits 10 ds := by
  induction ds generalizing a with
  | nil => simp
  | cons d t ih =>
      simp only [List.reverse_cons, List.map_append, List.foldl_append, ih, List.map_cons,
        List.map_nil, List.foldl_cons, List.foldl_nil, List.length_cons, Nat.ofDigits_cons]
      have hd : d + 48 - 48 = d := by omega
      rw [hd]
      ring

/-- The printed digits of a natural are never the empty string. -/
theorem natDecimal_ne_nil (n : Nat) : natDecimal n ≠ [] := by
  rw [natDecimal_eq_digits]
  by_cases h : n = 0
  · simp [h]
  · simp only [h, if_false]
    intro hc
    have := (Nat.digits_ne_nil_iff_ne_zero (b := 10)).mpr h
    simp at hc
    exact this hc

/-- Every byte of a printed natural is an ASCII digit. -/
theorem natDecimal_mem {n x : Nat} (hx : x ∈ natDecimal n) : 48 ≤ x ∧ x ≤ 57 := by
  rw [natDecimal_eq_digits] at hx
  by_cases h : n = 0
  · simp [h] at hx
    omega
  · simp only [h, if_false, List.mem_map, List.mem_reverse] at hx
    obtain ⟨d, hd, rfl⟩ := hx
    have : d < 10 := Nat.digits_lt_base (by norm_num) hd
    omega

/-- Every byte of a printed integer is `-` or an ASCII digit. -/
theorem intDecimal_mem {i : Int} {x : Nat} (hx : x ∈ intDecimal i) :
    x = 45 ∨ (48 ≤ x ∧ x ≤ 57) := by
  unfold intDecimal at hx
  by_cases h : i < 0
  · simp only [h, if_true, List.mem_cons] at hx
    rcases hx with rfl | hx
    · exact Or.inl rfl
    · exact Or.inr (natDecimal_mem hx)
  · simp only [h, if_false] at hx
    exact Or.inr (natDecimal_mem hx)

/-- A printed integer never contains the separator byte. -/
theorem intDecimal_ne_bar {i : Int} : ∀ x ∈ intDecimal i, x ≠ barByte := by
  intro x hx
  rcases intDecimal_mem hx with h | h <;> simp only [barByte] <;> omega

/-- Printed integers are made of bytes below 256. -/
theorem intDecimal_lt_256 {i : Int} : ∀ x ∈ intDecimal i, x < 256 := by
  intro x hx
  rcases intDecimal_mem hx with h | h <;> omega

/-- Parsing the printed digits of a natural recovers it. -/
theorem parseDec_natDecimal (n : Nat) : parseDec (natDecimal n) = some n := by
  have hall : (natDecimal n).all isDigitByte = true := by
    rw [List.all_eq_true]
    intro x hx
    have := natDecimal_mem hx
    simp [isDigitByte]
    omega
  rw [parseDec, if_pos ⟨natDecimal_ne_nil n, hall⟩]
  congr 1
  rw [natDecimal_eq_digits]
  unfold digitsVal
  by_cases h : n = 0
  · simp [h]
  · simp only [h, if_false]
    rw [foldl_digits]
    simp [Nat.ofDigits_digits]

/-- Round trip: parsing a printed int64 gives it back. -/
theorem parseInt64_intDecimal (i : Int) (hlo : -(2 ^ 63) ≤ i) (hhi : i < 2 ^ 63) :
    parseInt64 (intDecimal i) = some i := by
  by_cases hneg : i < 0
  · have h1 : (↑i.natAbs : Int) ≤ 2 ^ 63 := by omega
    have h2 : -(↑i.natAbs : Int) = i := by omega
    rw [intDecimal, if_pos hneg]
    simp [parseInt64, parseDec_natDecimal, h1, h2]
    rw [abs_of_neg hneg]
    omega
  · have h3 : (↑i.natAbs : Int) < 2 ^ 63 := by omega
    have h4 : (↑i.natAbs : Int) = i := by omega
    rw [intDecimal, if_neg hneg]
    rcases hnd : natDecimal i.natAbs with _ | ⟨c, rest⟩
    · exact absurd hnd (natDecimal_ne_nil _)
    · have hc : 48 ≤ c ∧ c ≤ 57 := natDecimal_mem (by rw [hnd]; exact List.mem_cons_self _ _)
      have hc45 : ¬c = 45 := by omega
      have hc43 : ¬c = 43 := by omega
      simp only [parseInt64, if_neg hc45, if_neg hc43, ← hnd, parseDec_natDecimal]
      simp [h3, h4]
      omega

/-! ## `bytes.SplitN(data, []byte("|"), n)` for a single-byte separator. -/

/-- Split a byte string at the first occurrence of `sep`, if present. -/
def splitFirstByte (sep : Nat) : Bytes → Option (Bytes × Bytes)
  | [] => none
  | x :: xs =>
      if x = sep then some ([], xs)
      else (splitFirstByte sep xs).map (fun p => (x :: p.1, p.2))

/-- `bytes.SplitN` for a one-byte separator: at most `n` pieces, the last
piece keeps any remaining separators. -/
def splitNByte (sep : Nat) : Nat → Bytes → List Bytes
  | 0, _ => []
  | 1, l => [l]
  | n + 2, l =>
      match splitFirstByte sep l with
      | none => [l]
      | some p => p.1 :: splitNByte sep (n + 1) p.2

/-- Unfolding `splitNByte` at a count of at least two. -/
theorem splitNByte_succ (sep n : Nat) (l : Bytes) :
    splitNByte sep (n + 2) l =
      match splitFirstByte sep l with
      | none => [l]
      | some p => p.1 :: splitNByte sep (n + 1) p.2 := rfl

/-- Unfolding `splitNByte` at count one. -/
theorem splitNByte_one (sep : Nat) (l : Bytes) : splitNByte sep 1 l = [l] := rfl

/-- Splitting at the first separator after a separator-free run. -/
theorem splitFirstByte_append {sep : Nat} {xs : Bytes} (hxs : ∀ x ∈ xs, x ≠ sep)
    (r : Bytes) : splitFirstByte sep (xs ++ sep :: r) = some (xs, r) := by
  induction xs with
  | nil => simp [splitFirstByte]
  | cons x t ih =>
      have hx : x ≠ sep := hxs x (List.mem_cons_self _ _)
      have ht : ∀ y ∈ t, y ≠ sep := fun y hy => hxs y (List.mem_cons_of_mem _ hy)
      simp only [List.cons_append, splitFirstByte, if_neg hx]
      simp [ih ht]

/-- A three-way `SplitN` of `ts|payload|mac` recovers the three parts when
`ts` and `payload` are separator-free (`mac` may contain separators: they all
land in the last part). -/
theorem splitNByte_three {sep : Nat} {ts p m : Bytes}
    (hts : ∀ x ∈ ts, x ≠ sep) (hp : ∀ x ∈ p, x ≠ sep) :
    splitNByte sep 3 (ts ++ sep :: (p ++ sep :: m)) = [ts, p, m] := by
  have e1 := splitNByte_succ sep 1 (ts ++ sep :: (p ++ sep :: m))
  have e2 := splitNByte_succ sep 0 (p ++ sep :: m)
  norm_num at e1 e2
  rw [e1]
  simp only [splitFirstByte_append hts (p ++ sep :: m)]
  rw [e2]
  simp only [splitFirstByte_append hp m, splitNByte_one]

/-! ## CTR keystream application (models `cipher.NewCTR(block, iv)` followed
by `stream.XORKeyStream(data, data)`). -/

/-- XOR a keystream (indexed from `i`) onto a byte string. -/
def xorKeyStream (ks : Nat → Nat) : Nat → Bytes → Bytes
  | _, [] => []
  | i, x :: xs => (x ^^^ ks i) :: xorKeyStream ks (i + 1) xs

/-- Applying the same keystream twice is the identity. -/
theorem xorKeyStream_involutive (ks : Nat → Nat) :
    ∀ (i : Nat) (l : Bytes), xorKeyStream ks i (xorKeyStream ks i l) = l := by
  intro i l
  induction l generalizing i with
  | nil => simp [xorKeyStream]
  | cons x xs ih =>
      simp only [xorKeyStream, ih, Nat.xor_assoc, Nat.xor_self, Nat.xor_zero]

/-- XORing a keystream preserves length. -/
theorem xorKeyStream_length (ks : Nat → Nat) :
    ∀ (i : Nat) (l : Bytes), (xorKeyStream ks i l).length = l.length := by
  intro i l
  induction l generalizing i with
  | nil => rfl
  | cons x xs ih => simp [xorKeyStream, ih]

/-- XORing byte-sized values with a byte-sized keystream stays byte-sized. -/
theorem xorKeyStream_lt_256 {ks : Nat → Nat} (hks : ∀ j, ks j < 256) :
    ∀ (i : Nat) (l : Bytes), (∀ x ∈ l, x < 256) →
      ∀ y ∈ xorKeyStream ks i l, y < 256 := by
  intro i l
  induction l generalizing i with
  | nil => intro _ y hy; simp [xorKeyStream] at hy
  | cons x xs ih =>
      intro hl y hy
      simp only [xorKeyStream, List.mem_cons] at hy
      rcases hy with rfl | hy
      · have hx : x < 2 ^ 8 := hl x (List.mem_cons_self _ _)
        have hk : ks i < 2 ^ 8 := hks i
        calc x ^^^ ks i < 2 ^ 8 := Nat.xor_lt_two_pow hx hk
        _ = 256 := by norm_num
      · exact ih (i + 1) (fun z hz => hl z (List.mem_cons_of_mem _ hz)) y hy

/-! ## The codec (`codec.go`). -/

/-- A `Serializer` (serializer.go): `Serialize(any) ([]byte, error)` and
`Deserialize([]byte, any) error`; deserialisation takes the current
destination value and returns the updated one. -/
structure Serializer (α : Type) where
  serialize : α → Except Err Bytes
  deserialize : Bytes → α → Except Err α

/-- A block cipher as the codec uses it: a block size and the CTR keystream
obtained from `cipher.NewCTR(block, iv)`, abstracted as a function of the IV
and the byte position. -/
structure BlockCipher where
  blockSize : Nat
  keystream : Bytes → Nat → Nat

/-- The `codec` struct (codec.go). `hmacFn key msg` models
`hmac.New(c.hashFn, key)` followed by write/sum, `timestampNow` the value of
`c.timestamp()` at the call, and `randSource n` the result of reading `n`
bytes from `crypto/rand.Reader` (`none` models a read failure). -/
structure codec (α : Type) where
  hashKey : Bytes
  hmacFn : Bytes → Bytes → Bytes
  block : Option BlockCipher
  maxLength : Int
  maxAge : Int
  minAge : Int
  serializer : Serializer α
  timestampNow : Int
  randSource : Nat → Option Bytes
  err : Option Err

/-- `codec.encrypt`: draw a random IV of the cipher's block size, XOR the
CTR keystream over the payload in place, and prepend the IV. A failed
random read is `errors.Join(ErrGeneratingIV, err)`. -/
def codec.encrypt {α : Type} (c : codec α) (b : BlockCipher) (data : Bytes) : Except Err Bytes :=
  match c.randSource b.blockSize with
  | none => .error (Err.join [Err.generatingIV, Err.randReadFailed])
  | some iv => .ok (iv ++ xorKeyStream (b.keystream iv) 0 data)

/-- `codec.decrypt`: split the leading IV off, failing when the payload is
shorter than the block size, and XOR the keystream again. -/
def codec.decrypt (b : BlockCipher) (data : Bytes) : Except Err Bytes :=
  if data.length < b.blockSize then .error .decryptionFailed
  else .ok (xorKeyStream (b.keystream (data.take b.blockSize)) 0 (data.drop b.blockSize))

/-- Step 2 of `codec.Encode`: encrypt only when a block cipher is configured. -/
def codec.encryptStep {α : Type} (c : codec α) (data : Bytes) : Except Err Bytes :=
  match c.block with
  | none => .ok data
  | some b => c.encrypt b data

/-- Step 5 of `codec.Decode`: decrypt only when a block cipher is configured. -/
def codec.decryptStep {α : Type} (c : codec α) (data : Bytes) : Except Err Bytes :=
  match c.block with
  | none => .ok data
  | some b => codec.decrypt b data

/-- `codec.Encode` (codec.go): short-circuit on a construction error;
serialize; optionally encrypt; base64 the payload; build
`fmt.Sprintf("%s|%d|%s|", name, timestamp, payload)`; MAC everything but the
trailing separator; append the MAC and strip the leading `name|`; base64 the
result; enforce `maxLength` unless it is zero. -/
def codec.Encode {α : Type} (c : codec α) (name : Bytes) (src : α) : Except Err Bytes :=
  match c.err with
  | some e => .error e
  | none =>
  match c.serializer.serialize src with
  | .error e => .error (Err.join [Err.serializeFailed, e])
  | .ok data0 =>
  match c.encryptStep data0 with
  | .error e => .error e
  | .ok data1 =>
  let payload := b64Encode data1
  let data2 := name ++ barByte :: (intDecimal c.timestampNow ++ barByte :: (payload ++ [barByte]))
  let mac := c.hmacFn c.hashKey (data2.take (data2.length - 1))
  let data3 := (data2 ++ mac).drop (name.length + 1)
  let data4 := b64Encode data3
  if c.maxLength ≠ 0 ∧ (data4.length : Int) > c.maxLength then .error .encodedLengthTooLong
  else .ok data4

/-- Steps 5–6 of `codec.Decode`: base64-decode the inner payload, optionally
decrypt it, and deserialize into the destination. -/
def codec.decodeTail {α : Type} (c : codec α) (p1 : Bytes) (dst : α) : Except Err α :=
  match b64Decode p1 with
  | .error e => .error e
  | .ok data2 =>
  match c.decryptStep data2 with
  | .error e => .error e
  | .ok data3 =>
  match c.serializer.deserialize data3 dst with
  | .error e => .error (Err.join [Err.deserializeFailed, e])
  | .ok v => .ok v

/-- `codec.Decode` (codec.go): short-circuit on a construction error; enforce
`maxLength` on the presented token unless zero; base64-decode the outer
layer; `SplitN` on `|` into exactly three parts, anything else being
`ErrHMACIsInvalid`; verify the MAC over the re-prepended `name|` and the
prefix before the MAC; parse and bound the timestamp; then the tail steps. -/
def codec.Decode {α : Type} (c : codec α) (name : Bytes) (src : Bytes) (dst : α) : Except Err α :=
  match c.err with
  | some e => .error e
  | none =>
  if c.maxLength ≠ 0 ∧ (src.length : Int) > c.maxLength then .error .encodedLengthTooLong
  else
  match b64Decode src with
  | .error e => .error e
  | .ok data =>
  match splitNByte barByte 3 data with
  | [p0, p1, p2] =>
      if c.hmacFn c.hashKey (name ++ barByte :: data.take (data.length - p2.length - 1)) = p2 then
        match parseInt64 p0 with
        | none => .error .timestampInvalid
        | some t1 =>
          if c.minAge ≠ 0 ∧ t1 > c.timestampNow - c.minAge then .error .timestampTooNew
          else if c.maxAge ≠ 0 ∧ t1 < c.timestampNow - c.maxAge then .error .timestampExpired
          else c.decodeTail p1 dst
      else .error .hmacInvalid
  | _ => .error .hmacInvalid

/-- Shape of a successful encode: the token is the base64 of
`timestamp|payload|mac` with the MAC computed over `name|timestamp|payload`. -/
theorem encode_shape {α : Type} (c : codec α) (name : Bytes) (src : α) (data0 data1 : Bytes)
    (herr : c.err = none) (hser : c.serializer.serialize src = .ok data0)
    (hstep : c.encryptStep data0 = .ok data1) :
    c.Encode name src =
      (if c.maxLength ≠ 0 ∧
          (((b64Encode (intDecimal c.timestampNow ++ barByte :: (b64Encode data1 ++ barByte ::
            c.hmacFn c.hashKey (name ++ barByte :: (intDecimal c.timestampNow ++ barByte ::
              b64Encode data1))))).length : Int) > c.maxLength)
        then .error .encodedLengthTooLong
        else .ok (b64Encode (intDecimal c.timestampNow ++ barByte :: (b64Encode data1 ++ barByte ::
          c.hmacFn c.hashKey (name ++ barByte :: (intDecimal c.timestampNow ++ barByte ::
            b64Encode data1)))))) := by
  rw [codec.Encode]
  simp only [herr, hser, hstep]
  have htake : (name ++ barByte :: (intDecimal c.timestampNow ++ barByte ::
        (b64Encode data1 ++ [barByte]))).take
      ((name ++ barByte :: (intDecimal c.timestampNow ++ barByte ::
        (b64Encode data1 ++ [barByte]))).length - 1)
      = name ++ barByte :: (intDecimal c.timestampNow ++ barByte :: b64Encode data1) := by
    have hsplit : name ++ barByte :: (intDecimal c.timestampNow ++ barByte ::
          (b64Encode data1 ++ [barByte]))
        = (name ++ barByte :: (intDecimal c.timestampNow ++ barByte :: b64Encode data1))
          ++ [barByte] := by
      simp
    rw [hsplit]
    have hlen2 : ((name ++ barByte :: (intDecimal c.timestampNow ++ barByte :: b64Encode data1))
          ++ [barByte]).length - 1
        = (name ++ barByte :: (intDecimal c.timestampNow ++ barByte :: b64Encode data1)).length := by
      simp
      omega
    rw [hlen2, take_len_left]
  rw [htake]
  have hdrop : ((name ++ barByte :: (intDecimal c.timestampNow ++ barByte ::
        (b64Encode data1 ++ [barByte])))
        ++ c.hmacFn c.hashKey (name ++ barByte :: (intDecimal c.timestampNow ++ barByte ::
          b64Encode data1))).drop (name.length + 1)
      = intDecimal c.timestampNow ++ barByte :: (b64Encode data1 ++ barByte ::
        c.hmacFn c.hashKey (name ++ barByte :: (intDecimal c.timestampNow ++ barByte ::
          b64Encode data1))) := by
    have hsplit2 : (name ++ barByte :: (intDecimal c.timestampNow ++ barByte ::
          (b64Encode data1 ++ [barByte])))
          ++ c.hmacFn c.hashKey (name ++ barByte :: (intDecimal c.timestampNow ++ barByte ::
            b64Encode data1))
        = (name ++ [barByte]) ++ (intDecimal c.timestampNow ++ barByte :: (b64Encode data1
          ++ barByte :: c.hmacFn c.hashKey (name ++ barByte :: (intDecimal c.timestampNow
            ++ barByte :: b64Encode data1)))) := by
      simp
    have hlen3 : (name ++ [barByte]).length = name.length + 1 := by simp
    rw [hsplit2, ← hlen3, drop_len_left]
  rw [hdrop]


/-- Decoding the base64 of `ts|payload|mac` (with separator-free `ts` and
`payload`): length check assumed passed, then the pipeline reduces to the MAC
comparison, the timestamp checks, and the tail. -/
theorem decode_token {α : Type} (c : codec α) (name tsS payload mac : Bytes) (dst : α)
    (herr : c.err = none)
    (hlen : ¬(c.maxLength ≠ 0 ∧
      (((b64Encode (tsS ++ barByte :: (payload ++ barByte :: mac))).length : Int) > c.maxLength)))
    (hb : ∀ x ∈ tsS ++ barByte :: (payload ++ barByte :: mac), x < 256)
    (hts : ∀ x ∈ tsS, x ≠ barByte) (hp : ∀ x ∈ payload, x ≠ barByte) :
    c.Decode name (b64Encode (tsS ++ barByte :: (payload ++ barByte :: mac))) dst =
      if c.hmacFn c.hashKey (name ++ barByte :: (tsS ++ barByte :: payload)) = mac then
        match parseInt64 tsS with
        | none => .error .timestampInvalid
        | some t1 =>
          if c.minAge ≠ 0 ∧ t1 > c.timestampNow - c.minAge then .error .timestampTooNew
          else if c.maxAge ≠ 0 ∧ t1 < c.timestampNow - c.maxAge then .error .timestampExpired
          else c.decodeTail payload dst
      else .error .hmacInvalid := by
  rw [codec.Decode]
  simp only [herr, if_neg hlen, b64Decode_b64Encode hb, splitNByte_three hts hp]
  have htake : (tsS ++ barByte :: (payload ++ barByte :: mac)).take
        ((tsS ++ barByte :: (payload ++ barByte :: mac)).length - mac.length - 1)
      = tsS ++ barByte :: payload := by
    have hsplit : tsS ++ barByte :: (payload ++ barByte :: mac)
        = (tsS ++ barByte :: payload) ++ (barByte :: mac) := by
      simp
    rw [hsplit]
    have hlen2 : ((tsS ++ barByte :: payload) ++ (barByte :: mac)).length - mac.length - 1
        = (tsS ++ barByte :: payload).length := by
      simp
      omega
    rw [hlen2, take_len_left]
  rw [htake]

/-- The optional-encryption step round-trips: whatever `encryptStep` produces,
`decryptStep` restores, and the ciphertext stays byte-sized (given a working
random source that returns a block-sized IV). -/
theorem encryptStep_roundtrip {α : Type} (c : codec α) (data0 : Bytes)
    (hd0 : ∀ x ∈ data0, x < 256)
    (hblock : ∀ b, c.block = some b →
      ∃ iv, c.randSource b.blockSize = some iv ∧ iv.length = b.blockSize ∧
        (∀ x ∈ iv, x < 256) ∧ (∀ ivx j, b.keystream ivx j < 256)) :
    ∃ data1, c.encryptStep data0 = .ok data1 ∧ (∀ x ∈ data1, x < 256) ∧
      c.decryptStep data1 = .ok data0 := by
  cases hblk : c.block with
  | none =>
      exact ⟨data0, by simp [codec.encryptStep, hblk], hd0, by simp [codec.decryptStep, hblk]⟩
  | some b =>
      obtain ⟨iv, hiv, hivlen, hivb, hks⟩ := hblock b hblk
      refine ⟨iv ++ xorKeyStream (b.keystream iv) 0 data0, ?_, ?_, ?_⟩
      · simp [codec.encryptStep, hblk, codec.encrypt, hiv]
      · intro x hx
        rcases List.mem_append.mp hx with h | h
        · exact hivb x h
        · exact xorKeyStream_lt_256 (hks iv) 0 data0 hd0 x h
      · simp only [codec.decryptStep, hblk, codec.decrypt]
        have hlen1 : (iv ++ xorKeyStream (b.keystream iv) 0 data0).length
            = b.blockSize + data0.length := by
          simp [xorKeyStream_length, hivlen]
        have hcond : ¬((iv ++ xorKeyStream (b.keystream iv) 0 data0).length < b.blockSize) := by
          omega
        rw [if_neg hcond]
        have htk : (iv ++ xorKeyStream (b.keystream iv) 0 data0).take b.blockSize = iv := by
          rw [← hivlen]; exact take_len_left _ _
        have hdp : (iv ++ xorKeyStream (b.keystream iv) 0 data0).drop b.blockSize
            = xorKeyStream (b.keystream iv) 0 data0 := by
          rw [← hivlen]; exact drop_len_left _ _
        rw [htk, hdp, xorKeyStream_involutive]

/-- General round trip over two codec records that share every field relevant
to decoding except the time source (so the decode may happen later). -/
theorem codec_roundtrip_aux {α : Type} (c cd : codec α) (name : Bytes) (src dst : α)
    (data0 tok : Bytes)
    (hkey : cd.hashKey = c.hashKey) (hfn : cd.hmacFn = c.hmacFn)
    (hblk2 : cd.block = c.block) (hml : cd.maxLength = c.maxLength)
    (hserl : cd.serializer = c.serializer)
    (herr : c.err = none) (herr2 : cd.err = none)
    (hser : c.serializer.serialize src = .ok data0)
    (hdes : c.serializer.deserialize data0 dst = .ok src)
    (hd0 : ∀ x ∈ data0, x < 256)
    (hmacB : ∀ k m x, x ∈ c.hmacFn k m → x < 256)
    (hblock : ∀ b, c.block = some b →
      ∃ iv, c.randSource b.blockSize = some iv ∧ iv.length = b.blockSize ∧
        (∀ x ∈ iv, x < 256) ∧ (∀ ivx j, b.keystream ivx j < 256))
    (htsr : -(2 ^ 63) ≤ c.timestampNow ∧ c.timestampNow < 2 ^ 63)
    (henc : c.Encode name src = .ok tok)
    (hmin : cd.minAge = 0 ∨ c.timestampNow ≤ cd.timestampNow - cd.minAge)
    (hmax : cd.maxAge = 0 ∨ cd.timestampNow - cd.maxAge ≤ c.timestampNow) :
    cd.Decode name tok dst = .ok src := by
  obtain ⟨data1, hstep, hd1, hdec⟩ := encryptStep_roundtrip c data0 hd0 hblock
  rw [encode_shape c name src data0 data1 herr hser hstep] at henc
  by_cases hcond : c.maxLength ≠ 0 ∧
      (((b64Encode (intDecimal c.timestampNow ++ barByte :: (b64Encode data1 ++ barByte ::
        c.hmacFn c.hashKey (name ++ barByte :: (intDecimal c.timestampNow ++ barByte ::
          b64Encode data1))))).length : Int) > c.maxLength)
  · rw [if_pos hcond] at henc
    exact absurd henc (by simp)
  · rw [if_neg hcond] at henc
    have htok := (Except.ok.inj henc).symm
    subst htok
    have hb : ∀ x ∈ intDecimal c.timestampNow ++ barByte :: (b64Encode data1 ++ barByte ::
        c.hmacFn c.hashKey (name ++ barByte :: (intDecimal c.timestampNow ++ barByte ::
          b64Encode data1))), x < 256 := by
      intro x hx
      rcases List.mem_append.mp hx with h | h
      · exact intDecimal_lt_256 x h
      · rcases List.mem_cons.mp h with rfl | h2
        · norm_num [barByte]
        · rcases List.mem_append.mp h2 with h3 | h4
          · exact b64Encode_lt_256 x h3
          · rcases List.mem_cons.mp h4 with rfl | h5
            · norm_num [barByte]
            · exact hmacB _ _ x h5
    have hlen2 : ¬(cd.maxLength ≠ 0 ∧
        (((b64Encode (intDecimal c.timestampNow ++ barByte :: (b64Encode data1 ++ barByte ::
          c.hmacFn c.hashKey (name ++ barByte :: (intDecimal c.timestampNow ++ barByte ::
            b64Encode data1))))).length : Int) > cd.maxLength)) := by
      rw [hml]; exact hcond
    rw [decode_token cd name (intDecimal c.timestampNow) (b64Encode data1)
      (c.hmacFn c.hashKey (name ++ barByte :: (intDecimal c.timestampNow ++ barByte ::
        b64Encode data1))) dst herr2 hlen2 hb intDecimal_ne_bar b64Encode_ne_bar]
    rw [hfn, hkey]
    rw [if_pos rfl]
    simp only [parseInt64_intDecimal c.timestampNow htsr.1 htsr.2]
    have hnot1 : ¬(cd.minAge ≠ 0 ∧ c.timestampNow > cd.timestampNow - cd.minAge) := by
      intro hcon
      rcases hmin with h | h
      · exact hcon.1 h
      · omega
    have hnot2 : ¬(cd.maxAge ≠ 0 ∧ c.timestampNow < cd.timestampNow - cd.maxAge) := by
      intro hcon
      rcases hmax with h | h
      · exact hcon.1 h
      · omega
    rw [if_neg hnot1, if_neg hnot2]
    rw [codec.decodeTail]
    simp only [b64Decode_b64Encode hd1]
    have hdstep : cd.decryptStep data1 = c.decryptStep data1 := by
      rw [codec.decryptStep, codec.decryptStep, hblk2]
    rw [hdstep]
    simp only [hdec, hserl, hdes]

/-- C2. For every value `v` the configured serializer round-trips, every name
and every validly constructed codec (no captured construction error, working
random source with block-sized IVs when encrypting), if `Encode(name, v)`
succeeds then decoding the token with the same codec at a later time `td`
succeeds and returns `v`, provided the elapsed time respects the configured
`minAge`/`maxAge` bounds (a zero bound imposing nothing). -/
theorem claim_C2_roundtrip {α : Type} (c : codec α) (td : Int) (name : Bytes) (src dst : α)
    (data0 tok : Bytes)
    (herr : c.err = none)
    (hser : c.serializer.serialize src = .ok data0)
    (hdes : c.serializer.deserialize data0 dst = .ok src)
    (hd0 : ∀ x ∈ data0, x < 256)
    (hmacB : ∀ k m x, x ∈ c.hmacFn k m → x < 256)
    (hblock : ∀ b, c.block = some b →
      ∃ iv, c.randSource b.blockSize = some iv ∧ iv.length = b.blockSize ∧
        (∀ x ∈ iv, x < 256) ∧ (∀ ivx j, b.keystream ivx j < 256))
    (htsr : -(2 ^ 63) ≤ c.timestampNow ∧ c.timestampNow < 2 ^ 63)
    (henc : c.Encode name src = .ok tok)
    (hmin : c.minAge = 0 ∨ c.timestampNow ≤ td - c.minAge)
    (hmax : c.maxAge = 0 ∨ td - c.maxAge ≤ c.timestampNow) :
    codec.Decode { c with timestampNow := td } name tok dst = .ok src :=
  codec_roundtrip_aux c { c with timestampNow := td } name src dst data0 tok
    rfl rfl rfl rfl rfl herr herr hser hdes hd0 hmacB hblock htsr henc hmin hmax

/-- MAC stub used by concrete witnesses: reduce every byte mod 256 (injective
on genuine byte strings, byte-bounded everywhere). -/
def modMacFn : Bytes → Bytes → Bytes := fun _ m => m.map (· % 256)

/-- The witness MAC always produces bytes below 256. -/
theorem modMacFn_lt_256 : ∀ k m x, x ∈ modMacFn k m → x < 256 := by
  intro k m x hx
  simp only [modMacFn, List.mem_map] at hx
  obtain ⟨y, _, rfl⟩ := hx
  omega

/-- Serializer stub used by concrete witnesses: a number becomes its single
byte. -/
def natSerializer : Serializer Nat :=
  { serialize := fun n => .ok [n % 256]
    deserialize := fun l _ =>
      match l with
      | [v] => .ok v
      | _ => .error (.serializerErr 0) }

/-- Codec used by concrete witnesses: hash key set, no block cipher,
unbounded length, no age bounds, time source frozen at 0. -/
def cW : codec Nat :=
  { hashKey := [107, 101, 121]
    hmacFn := modMacFn
    block := none
    maxLength := 0
    maxAge := 0
    minAge := 0
    serializer := natSerializer
    timestampNow := 0
    randSource := fun _ => none
    err := none }

/-- The name the witnesses encode under. -/
def c2NameW : Bytes := [110, 109]

/-- The concrete token the witness codec produces for value 5. -/
def c2TokW : Bytes :=
  match cW.Encode c2NameW 5 with
  | .ok t => t
  | .error _ => []

/-- C2 witness: the concrete token round-trips to the value 5. -/
theorem claim_C2_roundtrip_witness :
    codec.Decode { cW with timestampNow := 0 } c2NameW c2TokW 0 = .ok 5 :=
  claim_C2_roundtrip cW 0 c2NameW 5 0 [5] c2TokW rfl rfl rfl (by decide)
    modMacFn_lt_256 (fun b hb => nomatch hb) (by norm_num [cW]) rfl
    (Or.inl rfl) (Or.inl rfl)

/-- C3. Any token that passes the length check and whose base64-decoded outer
layer either does not split into exactly three parts on the separator, or
carries a MAC that does not verify, makes `Decode` return `HMACInvalid` —
whatever the timestamp field holds, so integrity failures are never reported
as timestamp errors. -/
theorem claim_C3_integrity {α : Type} (c : codec α) (name : Bytes) (dst : α) (data : Bytes)
    (herr : c.err = none)
    (hb : ∀ x ∈ data, x < 256)
    (hlen : ¬(c.maxLength ≠ 0 ∧ (((b64Encode data).length : Int) > c.maxLength)))
    (hbad : (splitNByte barByte 3 data).length ≠ 3 ∨
      (∀ p0 p1 p2, splitNByte barByte 3 data = [p0, p1, p2] →
        c.hmacFn c.hashKey (name ++ barByte :: data.take (data.length - p2.length - 1)) ≠ p2)) :
    c.Decode name (b64Encode data) dst = .error .hmacInvalid := by
  rw [codec.Decode]
  simp only [herr, if_neg hlen, b64Decode_b64Encode hb]
  split
  · rename_i p0 p1 p2 heq
    rcases hbad with hbad | hbad
    · rw [heq] at hbad
      simp at hbad
    · rw [if_neg (hbad p0 p1 p2 heq)]
  · rfl

/-- C3 witness: a one-part decoded layer (no separators at all) is rejected
as `HMACInvalid`. -/
theorem claim_C3_integrity_witness :
    cW.Decode c2NameW (b64Encode [48]) 0 = .error .hmacInvalid :=
  claim_C3_integrity cW c2NameW 0 [48] rfl (by decide) (by norm_num [cW])
    (Or.inl (by decide))

/-- C4. A token encoded under name `a` fails `Decode` under a different name
`b` with `HMACInvalid`, because the MAC was computed over the `a|`-prefixed
string and verification re-prepends the caller's name — assuming the MAC does
not collide on the two name-prefixed strings. -/
theorem claim_C4_name_binding {α : Type} (c : codec α) (a b : Bytes) (src : α) (dst : α)
    (data0 tok : Bytes)
    (herr : c.err = none)
    (hser : c.serializer.serialize src = .ok data0)
    (hd0 : ∀ x ∈ data0, x < 256)
    (hmacB : ∀ k m x, x ∈ c.hmacFn k m → x < 256)
    (hblock : ∀ bc, c.block = some bc →
      ∃ iv, c.randSource bc.blockSize = some iv ∧ iv.length = bc.blockSize ∧
        (∀ x ∈ iv, x < 256) ∧ (∀ ivx j, bc.keystream ivx j < 256))
    (henc : c.Encode a src = .ok tok)
    (hcol : ∀ r : Bytes,
      c.hmacFn c.hashKey (b ++ barByte :: r) ≠ c.hmacFn c.hashKey (a ++ barByte :: r)) :
    c.Decode b tok dst = .error .hmacInvalid := by
  obtain ⟨data1, hstep, hd1, _hdec⟩ := encryptStep_roundtrip c data0 hd0 hblock
  rw [encode_shape c a src data0 data1 herr hser hstep] at henc
  by_cases hcond : c.maxLength ≠ 0 ∧
      (((b64Encode (intDecimal c.timestampNow ++ barByte :: (b64Encode data1 ++ barByte ::
        c.hmacFn c.hashKey (a ++ barByte :: (intDecimal c.timestampNow ++ barByte ::
          b64Encode data1))))).length : Int) > c.maxLength)
  · rw [if_pos hcond] at henc
    exact absurd henc (by simp)
  · rw [if_neg hcond] at henc
    have htok := (Except.ok.inj henc).symm
    subst htok
    have hbb : ∀ x ∈ intDecimal c.timestampNow ++ barByte :: (b64Encode data1 ++ barByte ::
        c.hmacFn c.hashKey (a ++ barByte :: (intDecimal c.timestampNow ++ barByte ::
          b64Encode data1))), x < 256 := by
      intro x hx
      rcases List.mem_append.mp hx with h | h
      · exact intDecimal_lt_256 x h
      · rcases List.mem_cons.mp h with rfl | h2
        · norm_num [barByte]
        · rcases List.mem_append.mp h2 with h3 | h4
          · exact b64Encode_lt_256 x h3
          · rcases List.mem_cons.mp h4 with rfl | h5
            · norm_num [barByte]
            · exact hmacB _ _ x h5
    rw [decode_token c b (intDecimal c.timestampNow) (b64Encode data1)
      (c.hmacFn c.hashKey (a ++ barByte :: (intDecimal c.timestampNow ++ barByte ::
        b64Encode data1))) dst herr hcond hbb intDecimal_ne_bar b64Encode_ne_bar]
    rw [if_neg (hcol (intDecimal c.timestampNow ++ barByte :: b64Encode data1))]

/-- The concrete token the witness codec produces for value 5 under name
`[97]`. -/
def c4TokW : Bytes :=
  match cW.Encode [97] 5 with
  | .ok t => t
  | .error _ => []

/-- C4 witness: the token encoded under name `[97]` is rejected under name
`[98]` as `HMACInvalid`. -/
theorem claim_C4_name_binding_witness :
    cW.Decode [98] c4TokW 0 = .error .hmacInvalid :=
  claim_C4_name_binding cW [97] [98] 5 0 [5] c4TokW rfl rfl (by decide)
    modMacFn_lt_256 (fun bc hb => nomatch hb) rfl
    (by intro r h; simp [cW, modMacFn] at h)

/-- The optional-encryption step only ever fails with the joined
IV-generation error. -/
theorem encryptStep_error_shape {α : Type} (c : codec α) (d : Bytes) (e : Err)
    (h : c.encryptStep d = .error e) : e = Err.join [Err.generatingIV, Err.randReadFailed] := by
  rw [codec.encryptStep] at h
  rcases hb : c.block with _ | b
  · simp only [hb] at h
    simp at h
  · simp only [hb] at h
    rw [codec.encrypt] at h
    rcases hr : c.randSource b.blockSize with _ | iv
    · simp only [hr] at h
      exact (Except.error.inj h).symm
    · simp only [hr] at h
      simp at h

/-- The optional-decryption step only ever fails with `DecryptionFailed`. -/
theorem decryptStep_error_shape {α : Type} (c : codec α) (d : Bytes) (e : Err)
    (h : c.decryptStep d = .error e) : e = Err.decryptionFailed := by
  rw [codec.decryptStep] at h
  rcases hb : c.block with _ | b
  · simp only [hb] at h
    simp at h
  · simp only [hb] at h
    rw [codec.decrypt] at h
    by_cases hl : d.length < b.blockSize
    · rw [if_pos hl] at h
      exact (Except.error.inj h).symm
    · rw [if_neg hl] at h
      simp at h

/-- Base64 decoding only ever fails with the decode-failure error. -/
theorem b64Decode_error_shape : ∀ (l : Bytes) (e : Err), b64Decode l = .error e →
    e = Err.base64DecodeFailed := by
  intro l
  induction l using b64Decode.induct <;> intro e h <;>
    (try simp_all [b64Decode]) <;> (try split at h) <;> simp_all

/-- C6. On a token whose MAC verifies, `Decode` enforces exactly these
freshness boundaries: an unparsable timestamp is `TimestampInvalid`; with
`minAge ≠ 0`, `t1 > now - minAge` is `TimestampTooNew` (so `now - minAge`
itself passes); with `maxAge ≠ 0`, `t1 < now - maxAge` is `TimestampExpired`
(so `now - maxAge` itself passes); a zero bound imposes nothing and a token
inside both bounds proceeds to the payload steps. -/
theorem claim_C6_age_bounds {α : Type} (c : codec α) (name tsS payload mac : Bytes) (dst : α)
    (herr : c.err = none)
    (hmaceq : mac = c.hmacFn c.hashKey (name ++ barByte :: (tsS ++ barByte :: payload)))
    (hlen : ¬(c.maxLength ≠ 0 ∧
      (((b64Encode (tsS ++ barByte :: (payload ++ barByte :: mac))).length : Int) > c.maxLength)))
    (hb : ∀ x ∈ tsS ++ barByte :: (payload ++ barByte :: mac), x < 256)
    (hts : ∀ x ∈ tsS, x ≠ barByte) (hp : ∀ x ∈ payload, x ≠ barByte) :
    (parseInt64 tsS = none →
      c.Decode name (b64Encode (tsS ++ barByte :: (payload ++ barByte :: mac))) dst
        = .error .timestampInvalid) ∧
    (∀ t1, parseInt64 tsS = some t1 → c.minAge ≠ 0 → t1 > c.timestampNow - c.minAge →
      c.Decode name (b64Encode (tsS ++ barByte :: (payload ++ barByte :: mac))) dst
        = .error .timestampTooNew) ∧
    (∀ t1, parseInt64 tsS = some t1 → ¬(c.minAge ≠ 0 ∧ t1 > c.timestampNow - c.minAge) →
      c.maxAge ≠ 0 → t1 < c.timestampNow - c.maxAge →
      c.Decode name (b64Encode (tsS ++ barByte :: (payload ++ barByte :: mac))) dst
        = .error .timestampExpired) ∧
    (∀ t1, parseInt64 tsS = some t1 → ¬(c.minAge ≠ 0 ∧ t1 > c.timestampNow - c.minAge) →
      ¬(c.maxAge ≠ 0 ∧ t1 < c.timestampNow - c.maxAge) →
      c.Decode name (b64Encode (tsS ++ barByte :: (payload ++ barByte :: mac))) dst
        = c.decodeTail payload dst) := by
  have hdt := decode_token c name tsS payload mac dst herr hlen hb hts hp
  rw [if_pos hmaceq.symm] at hdt
  refine ⟨?_, ?_, ?_, ?_⟩
  · intro hnone
    rw [hdt]
    simp only [hnone]
  · intro t1 hsome hmn hgt
    rw [hdt]
    simp only [hsome]
    rw [if_pos ⟨hmn, hgt⟩]
  · intro t1 hsome hn1 hmx hlt
    rw [hdt]
    simp only [hsome]
    rw [if_neg hn1, if_pos ⟨hmx, hlt⟩]
  · intro t1 hsome hn1 hn2
    rw [hdt]
    simp only [hsome]
    rw [if_neg hn1, if_neg hn2]

/-- Witness codec for C6: `minAge = 100`, time frozen at 1000. -/
def c6CodecW : codec Nat := { cW with minAge := 100, timestampNow := 1000 }

/-- Witness MAC for C6 over name `c2NameW`, timestamp 901, payload `[65]`. -/
def c6MacW : Bytes :=
  modMacFn [107, 101, 121] (c2NameW ++ barByte :: (intDecimal 901 ++ barByte :: [65]))

/-- C6 witness: with `minAge = 100` and `now = 1000`, a verified token
timestamped 901 (= now - 99) is rejected as `TimestampTooNew`. -/
theorem claim_C6_age_bounds_witness :
    c6CodecW.Decode c2NameW
        (b64Encode (intDecimal 901 ++ barByte :: ([65] ++ barByte :: c6MacW))) 0
      = .error .timestampTooNew :=
  (claim_C6_age_bounds c6CodecW c2NameW (intDecimal 901) [65] c6MacW 0 rfl rfl
      (by norm_num [c6CodecW, cW]) (by decide) intDecimal_ne_bar (by decide)).2.1
    901 (by decide) (by norm_num [c6CodecW, cW]) (by norm_num [c6CodecW, cW])

/-- The tail steps of `Decode` never produce the length error. -/
theorem decodeTail_ne_length {α : Type} (c : codec α) (p : Bytes) (dst : α) :
    c.decodeTail p dst ≠ .error .encodedLengthTooLong := by
  intro h
  rw [codec.decodeTail] at h
  cases hbd : b64Decode p with
  | error e =>
      have he := b64Decode_error_shape _ _ hbd
      subst he
      simp only [hbd] at h
      simp at h
  | ok d2 =>
      simp only [hbd] at h
      cases hds : c.decryptStep d2 with
      | error e2 =>
          have he2 := decryptStep_error_shape c _ _ hds
          subst he2
          simp only [hds] at h
          simp at h
      | ok d3 =>
          simp only [hds] at h
          cases hde : c.serializer.deserialize d3 dst with
          | error e3 =>
              simp only [hde] at h
              simp at h
          | ok v =>
              simp only [hde] at h
              simp at h

/-- C8. A nonzero `maxLength` is enforced in both directions — `Encode` fails
with `EncodedLengthTooLong` whenever the final token exceeds it, and `Decode`
of any presented token longer than it fails with `EncodedLengthTooLong` as the
very first check, before base64 or MAC work (the token can be arbitrary) —
while `maxLength = 0` disables the bound in both directions. -/
theorem claim_C8_length_bounds {α : Type} (c : codec α) (name : Bytes) (src : α) (dst : α)
    (data0 data1 tokIn : Bytes)
    (herr : c.err = none) :
    (c.serializer.serialize src = .ok data0 → c.encryptStep data0 = .ok data1 →
      c.maxLength ≠ 0 →
      (((b64Encode (intDecimal c.timestampNow ++ barByte :: (b64Encode data1 ++ barByte ::
        c.hmacFn c.hashKey (name ++ barByte :: (intDecimal c.timestampNow ++ barByte ::
          b64Encode data1))))).length : Int) > c.maxLength) →
      c.Encode name src = .error .encodedLengthTooLong) ∧
    (c.maxLength ≠ 0 → ((tokIn.length : Int) > c.maxLength) →
      c.Decode name tokIn dst = .error .encodedLengthTooLong) ∧
    (c.maxLength = 0 → c.Encode name src ≠ .error .encodedLengthTooLong) ∧
    (c.maxLength = 0 → c.Decode name tokIn dst ≠ .error .encodedLengthTooLong) := by
  refine ⟨?_, ?_, ?_, ?_⟩
  · intro hser hstep hne hgt
    rw [encode_shape c name src data0 data1 herr hser hstep]
    rw [if_pos ⟨hne, hgt⟩]
  · intro hne hgt
    rw [codec.Decode]
    simp only [herr]
    rw [if_pos ⟨hne, hgt⟩]
  · intro hml0 hcontra
    rw [codec.Encode] at hcontra
    simp only [herr] at hcontra
    cases hs : c.serializer.serialize src with
    | error e =>
        simp only [hs] at hcontra
        simp at hcontra
    | ok d0 =>
        simp only [hs] at hcontra
        cases he : c.encryptStep d0 with
        | error e2 =>
            have he2 := encryptStep_error_shape c _ _ he
            subst he2
            simp only [he] at hcontra
            simp at hcontra
        | ok d1 =>
            simp only [he] at hcontra
            rw [hml0] at hcontra
            split at hcontra
            · rename_i hcond
              simp at hcond
            · simp at hcontra
  · intro hml0 hcontra
    rw [codec.Decode] at hcontra
    simp only [herr] at hcontra
    rw [hml0] at hcontra
    split at hcontra
    · rename_i hcond
      simp at hcond
    · cases hbd : b64Decode tokIn with
      | error e =>
          have he := b64Decode_error_shape _ _ hbd
          subst he
          simp only [hbd] at hcontra
          simp at hcontra
      | ok data =>
          simp only [hbd] at hcontra
          split at hcontra
          · split at hcontra
            · split at hcontra
              · simp at hcontra
              · split at hcontra
                · simp at hcontra
                · split at hcontra
                  · simp at hcontra
                  · exact decodeTail_ne_length c _ _ hcontra
            · simp at hcontra
          · simp at hcontra

/-- Witness codec for C8: `maxLength = 10`. -/
def c8CodecW : codec Nat := { cW with maxLength := 10 }

/-- C8 witness: an 11-byte presented token is rejected by the length bound
before any decoding. -/
theorem claim_C8_length_bounds_witness :
    c8CodecW.Decode c2NameW [65, 65, 65, 65, 65, 65, 65, 65, 65, 65, 65] 0
      = .error .encodedLengthTooLong :=
  (claim_C8_length_bounds c8CodecW c2NameW 5 0 [5] [5]
      [65, 65, 65, 65, 65, 65, 65, 65, 65, 65, 65] rfl).2.1
    (by norm_num [c8CodecW, cW]) (by norm_num [c8CodecW, cW])

/-! ## Session proxy (`proxy.go`). Codecs are abstracted behind the `Codec`
interface; cookies written to the response are returned as values. -/

/-- The `Codec` interface: `Encode(name, src)` and `Decode(name, src, dst)`
(the destination is in/out, so decoding returns the updated value). -/
structure CodecI (α : Type) where
  enc : Bytes → α → Except Err Bytes
  dec : Bytes → Bytes → α → Except Err α

/-- `CookieOptions` (cookie_options.go); `sameSite` is the numeric
`http.SameSite` value. -/
structure CookieOpts where
  name : Bytes
  path : Bytes
  domain : Bytes
  maxAge : Int
  secure : Bool
  httpOnly : Bool
  partitioned : Bool
  sameSite : Nat

/-- An outbound `http.Cookie` as the proxy builds it. `expires` models the
`Expires` attribute as a Unix second (0 = unset zero time, 1 = `time.Unix(1,0)`). -/
structure Cookie where
  name : Bytes
  value : Bytes
  path : Bytes
  domain : Bytes
  maxAge : Int
  expires : Int
  secure : Bool
  httpOnly : Bool
  partitioned : Bool
  sameSite : Nat

/-- `SessionProxy` (proxy.go). `hasResp` models `resp != nil`. -/
structure SessionProxy (α : Type) where
  ID : Bytes
  Values : α
  IsNew : Bool
  hasResp : Bool
  codecs : List (CodecI α)
  options : CookieOpts

/-- The decode loop of `SessionProxy.Decode`: first success wins, otherwise
every error is collected and joined. -/
def decodeLoop {α : Type} (name data : Bytes) (dst : α) :
    List (CodecI α) → List Err → Except Err α
  | [], errs => .error (.join errs)
  | cd :: rest, errs =>
      match cd.dec name data dst with
      | .ok v => .ok v
      | .error e => decodeLoop name data dst rest (errs ++ [e])

/-- `SessionProxy.Decode`: `ErrNoCodecs` when none are configured, else the
loop over the codec set. -/
def SessionProxy.Decode {α : Type} (sp : SessionProxy α) (data : Bytes) (dst : α) :
    Except Err α :=
  if sp.codecs.length = 0 then .error .noCodecs
  else decodeLoop sp.options.name data dst sp.codecs []

/-- The encode loop of `SessionProxy.Encode`: same first-success-wins shape
as the decode loop. -/
def encodeLoop {α : Type} (name : Bytes) (src : α) :
    List (CodecI α) → List Err → Except Err Bytes
  | [], errs => .error (.join errs)
  | cd :: rest, errs =>
      match cd.enc name src with
      | .ok v => .ok v
      | .error e => encodeLoop name src rest (errs ++ [e])

/-- `SessionProxy.Encode`: `ErrNoCodecs` when none are configured, else the
loop over the codec set. -/
def SessionProxy.Encode {α : Type} (sp : SessionProxy α) (src : α) : Except Err Bytes :=
  if sp.codecs.length = 0 then .error .noCodecs
  else encodeLoop sp.options.name src sp.codecs []

/-- `SessionProxy.Save`: refuse without a response writer, else build the
cookie from the options, with the `MaxAge` switch deciding the `Expires`
attribute and clearing the value on negative max-age. Returns the written
cookie and the (unchanged) proxy. -/
def SessionProxy.Save {α : Type} (sp : SessionProxy α) (value : Bytes) (now : Int) :
    Except Err Cookie × SessionProxy α :=
  if sp.hasResp = false then (.error .noResponseWriter, sp)
  else
    let base : Cookie :=
      { name := sp.options.name, value := value, path := sp.options.path,
        domain := sp.options.domain, maxAge := sp.options.maxAge, expires := 0,
        secure := sp.options.secure, httpOnly := sp.options.httpOnly,
        partitioned := sp.options.partitioned, sameSite := sp.options.sameSite }
    if sp.options.maxAge > 0 then (.ok { base with expires := now + sp.options.maxAge }, sp)
    else if sp.options.maxAge < 0 then (.ok { base with expires := 1, value := [] }, sp)
    else (.ok base, sp)

/-- The immediately-expiring empty cookie `SessionProxy.Delete` writes. -/
def expiredCookie (o : CookieOpts) : Cookie :=
  { name := o.name, value := [], path := o.path, domain := o.domain, maxAge := -1,
    expires := 1, secure := o.secure, httpOnly := o.httpOnly,
    partitioned := o.partitioned, sameSite := o.sameSite }

/-- `SessionProxy.Delete`: refuse without a response writer, else write the
expiring cookie regardless of the configured max-age. -/
def SessionProxy.Delete {α : Type} (sp : SessionProxy α) : Except Err Cookie × SessionProxy α :=
  if sp.hasResp = false then (.error .noResponseWriter, sp)
  else (.ok (expiredCookie sp.options), sp)

/-- `SessionProxy.MaxAge`. -/
def SessionProxy.MaxAge {α : Type} (sp : SessionProxy α) : Int := sp.options.maxAge

/-- `SessionProxy.IsExpired`. -/
def SessionProxy.IsExpired {α : Type} (sp : SessionProxy α) : Bool :=
  decide (sp.options.maxAge < 0)

/-- The decode loop returns the first success, skipping any failing run of
codecs before it. -/
theorem decodeLoop_first_success {α : Type} (name data : Bytes) (dst : α) (cd : CodecI α)
    (post : List (CodecI α)) (v : α) (hok : cd.dec name data dst = .ok v) :
    ∀ (pre : List (CodecI α)) (acc : List Err),
      (∀ ci ∈ pre, ∃ e, ci.dec name data dst = .error e) →
      decodeLoop name data dst (pre ++ cd :: post) acc = .ok v := by
  intro pre
  induction pre with
  | nil =>
      intro acc _
      simp only [List.nil_append, decodeLoop, hok]
  | cons c0 t ih =>
      intro acc hpre
      obtain ⟨e, he⟩ := hpre c0 (List.mem_cons_self _ _)
      simp only [List.cons_append, decodeLoop, he]
      exact ih (acc ++ [e]) (fun ci hi => hpre ci (List.mem_cons_of_mem _ hi))

/-- When every codec fails, the decode loop joins the accumulator with every
error in order. -/
theorem decodeLoop_all_fail {α : Type} (name data : Bytes) (dst : α) (es : CodecI α → Err) :
    ∀ (cs : List (CodecI α)) (acc : List Err),
      (∀ ci ∈ cs, ci.dec name data dst = .error (es ci)) →
      decodeLoop name data dst cs acc = .error (.join (acc ++ cs.map es)) := by
  intro cs
  induction cs with
  | nil =>
      intro acc _
      simp [decodeLoop]
  | cons c0 t ih =>
      intro acc hall
      simp only [decodeLoop, hall c0 (List.mem_cons_self _ _)]
      rw [ih (acc ++ [es c0]) (fun ci hi => hall ci (List.mem_cons_of_mem _ hi))]
      simp

/-- Encode-loop analogue of `decodeLoop_first_success`. -/
theorem encodeLoop_first_success {α : Type} (name : Bytes) (src : α) (cd : CodecI α)
    (post : List (CodecI α)) (v : Bytes) (hok : cd.enc name src = .ok v) :
    ∀ (pre : List (CodecI α)) (acc : List Err),
      (∀ ci ∈ pre, ∃ e, ci.enc name src = .error e) →
      encodeLoop name src (pre ++ cd :: post) acc = .ok v := by
  intro pre
  induction pre with
  | nil =>
      intro acc _
      simp only [List.nil_append, encodeLoop, hok]
  | cons c0 t ih =>
      intro acc hpre
      obtain ⟨e, he⟩ := hpre c0 (List.mem_cons_self _ _)
      simp only [List.cons_append, encodeLoop, he]
      exact ih (acc ++ [e]) (fun ci hi => hpre ci (List.mem_cons_of_mem _ hi))

/-- Encode-loop analogue of `decodeLoop_all_fail`. -/
theorem encodeLoop_all_fail {α : Type} (name : Bytes) (src : α) (es : CodecI α → Err) :
    ∀ (cs : List (CodecI α)) (acc : List Err),
      (∀ ci ∈ cs, ci.enc name src = .error (es ci)) →
      encodeLoop name src cs acc = .error (.join (acc ++ cs.map es)) := by
  intro cs
  induction cs with
  | nil =>
      intro acc _
      simp [encodeLoop]
  | cons c0 t ih =>
      intro acc hall
      simp only [encodeLoop, hall c0 (List.mem_cons_self _ _)]
      rw [ih (acc ++ [es c0]) (fun ci hi => hall ci (List.mem_cons_of_mem _ hi))]
      simp

/-- C7. `SessionProxy.Decode` tries the codecs in list order and returns as
soon as one succeeds; when every codec rejects, the joined list of all the
per-codec errors (in order) is returned; with no codecs at all the distinct
`NoCodecs` error is returned. -/
theorem claim_C7_decode_rotation {α : Type} (sp : SessionProxy α) (data : Bytes) (dst : α) :
    (sp.codecs = [] → sp.Decode data dst = .error .noCodecs) ∧
    (∀ pre cd post v, sp.codecs = pre ++ cd :: post →
      (∀ ci ∈ pre, ∃ e, ci.dec sp.options.name data dst = .error e) →
      cd.dec sp.options.name data dst = .ok v →
      sp.Decode data dst = .ok v) ∧
    (∀ es : CodecI α → Err, sp.codecs ≠ [] →
      (∀ ci ∈ sp.codecs, ci.dec sp.options.name data dst = .error (es ci)) →
      sp.Decode data dst = .error (.join (sp.codecs.map es))) := by
  refine ⟨?_, ?_, ?_⟩
  · intro h
    simp [SessionProxy.Decode, h]
  · intro pre cd post v hcs hpre hok
    rw [SessionProxy.Decode]
    have hne : ¬(sp.codecs.length = 0) := by
      rw [hcs]
      simp
    rw [if_neg hne, hcs]
    exact decodeLoop_first_success sp.options.name data dst cd post v hok pre [] hpre
  · intro es hne hall
    rw [SessionProxy.Decode]
    have hne2 : ¬(sp.codecs.length = 0) := by
      simpa [List.length_eq_zero] using hne
    rw [if_neg hne2]
    rw [decodeLoop_all_fail sp.options.name data dst es sp.codecs [] hall]
    simp

/-- Witness codec that always fails to encode or decode. -/
def cFailW : CodecI Nat :=
  { enc := fun _ _ => .error .serializeFailed, dec := fun _ _ _ => .error .hmacInvalid }

/-- Witness codec that encodes everything to `[7]` and decodes everything
to `9`. -/
def cOkW : CodecI Nat := { enc := fun _ _ => .ok [7], dec := fun _ _ _ => .ok 9 }

/-- Cookie options shared by the proxy witnesses. -/
def optsW : CookieOpts :=
  { name := c2NameW, path := [47], domain := [], maxAge := 3600, secure := false,
    httpOnly := true, partitioned := false, sameSite := 0 }

/-- Proxy wired with a failing codec before a succeeding one. -/
def c1ProxyW : SessionProxy Nat :=
  { ID := [], Values := 0, IsNew := false, hasResp := true,
    codecs := [cFailW, cOkW], options := optsW }

/-- C7 witness: a failing codec followed by a succeeding one decodes via the
second codec. -/
theorem claim_C7_decode_rotation_witness :
    SessionProxy.Decode c1ProxyW [1] 0 = .ok 9 :=
  (claim_C7_decode_rotation c1ProxyW [1] 0).2.1 [cFailW] cOkW [] 9 rfl
    (by
      intro ci hi
      rw [List.mem_singleton] at hi
      subst hi
      exact ⟨Err.hmacInvalid, rfl⟩)
    rfl

/-- C1 (amended). `SessionProxy.Encode` tries the codecs in order starting at
index 0: when the first codec succeeds its result is returned (so the first
codec alone determines the outcome in that case); when it fails the remaining
codecs are tried in order, the first success winning; only when every codec
fails does `Encode` fail, with the join of all the per-codec errors. -/
theorem claim_C1_encode_order {α : Type} (sp : SessionProxy α) (src : α) :
    (∀ cd rest v, sp.codecs = cd :: rest → cd.enc sp.options.name src = .ok v →
      SessionProxy.Encode sp src = .ok v) ∧
    (∀ pre cd post v, sp.codecs = pre ++ cd :: post →
      (∀ ci ∈ pre, ∃ e, ci.enc sp.options.name src = .error e) →
      cd.enc sp.options.name src = .ok v →
      SessionProxy.Encode sp src = .ok v) ∧
    (∀ es : CodecI α → Err, sp.codecs ≠ [] →
      (∀ ci ∈ sp.codecs, ci.enc sp.options.name src = .error (es ci)) →
      SessionProxy.Encode sp src = .error (.join (sp.codecs.map es))) := by
  have hmain : ∀ pre cd post v, sp.codecs = pre ++ cd :: post →
      (∀ ci ∈ pre, ∃ e, ci.enc sp.options.name src = .error e) →
      cd.enc sp.options.name src = .ok v →
      SessionProxy.Encode sp src = .ok v := by
    intro pre cd post v hcs hpre hok
    rw [SessionProxy.Encode]
    have hne : ¬(sp.codecs.length = 0) := by
      rw [hcs]
      simp
    rw [if_neg hne, hcs]
    exact encodeLoop_first_success sp.options.name src cd post v hok pre [] hpre
  refine ⟨?_, hmain, ?_⟩
  · intro cd rest v hcs hok
    exact hmain [] cd rest v hcs (by simp) hok
  · intro es hne hall
    rw [SessionProxy.Encode]
    have hne2 : ¬(sp.codecs.length = 0) := by
      simpa [List.length_eq_zero] using hne
    rw [if_neg hne2]
    rw [encodeLoop_all_fail sp.options.name src es sp.codecs [] hall]
    simp

/-- C1 counterexample: with a failing codec at index 0 and a succeeding codec
at index 1, `SessionProxy.Encode` returns the second codec's bytes rather
than the first codec's result, so Encode does not use exactly codec 0. -/
theorem claim_C1_counterexample :
    SessionProxy.Encode c1ProxyW 5 = .ok [7] ∧
    cFailW.enc c1ProxyW.options.name 5 = .error .serializeFailed ∧
    SessionProxy.Encode c1ProxyW 5 ≠ cFailW.enc c1ProxyW.options.name 5 :=
  ⟨rfl, rfl, fun h => nomatch h⟩

/-- C1 witness (for the amended claim): the same proxy encodes to `[7]` via
the fallback to the second codec. -/
theorem claim_C1_encode_order_witness :
    SessionProxy.Encode c1ProxyW 5 = .ok [7] :=
  (claim_C1_encode_order c1ProxyW 5).2.1 [cFailW] cOkW [] [7] rfl
    (by
      intro ci hi
      rw [List.mem_singleton] at hi
      subst hi
      exact ⟨Err.serializeFailed, rfl⟩)
    rfl

/-- C10. On a proxy with no response writer, `Save` and `Delete` both return
`NoResponseWriter`, write no cookie, and leave the proxy (its `ID`, `Values`
and `IsNew` included) unchanged. -/
theorem claim_C10_no_response_writer {α : Type} (sp : SessionProxy α) (value : Bytes)
    (now : Int) (h : sp.hasResp = false) :
    SessionProxy.Save sp value now = (.error .noResponseWriter, sp) ∧
    SessionProxy.Delete sp = (.error .noResponseWriter, sp) := by
  constructor
  · rw [SessionProxy.Save, if_pos h]
  · rw [SessionProxy.Delete, if_pos h]

/-- Proxy without a response writer for the C10 witness. -/
def c10ProxyW : SessionProxy Nat := { c1ProxyW with hasResp := false }

/-- C10 witness at a concrete proxy. -/
theorem claim_C10_no_response_writer_witness :
    SessionProxy.Save c10ProxyW [1] 0 = (.error .noResponseWriter, c10ProxyW) ∧
    SessionProxy.Delete c10ProxyW = (.error .noResponseWriter, c10ProxyW) :=
  claim_C10_no_response_writer c10ProxyW [1] 0 rfl

/-! ## The filesystem store (`store.go`). The filesystem is an association
list from file name to contents; `os` calls are modelled on a healthy
filesystem whose only failure mode is a missing file. -/

/-- Go's `any` as it flows through the store: either a session-ID string
(`proxy.ID`) or the typed session value. -/
inductive GoAny (β : Type) where
  | ofString (s : Bytes)
  | ofVal (v : β)

/-- The filesystem: file name to contents. -/
abbrev FSState := List (Bytes × Bytes)

/-- Look a file up by name. -/
def fsLookup : FSState → Bytes → Option Bytes
  | [], _ => none
  | (k, v) :: rest, f => if k = f then some v else fsLookup rest f

/-- Remove a file's entries. -/
def fsEraseFile (st : FSState) (fname : Bytes) : FSState :=
  st.filter (fun p => decide (p.1 ≠ fname))

/-- Write (create or replace) a file. -/
def fsSetFile (st : FSState) (fname data : Bytes) : FSState :=
  (fname, data) :: fsEraseFile st fname

/-- The only modelled `os` error: the file does not exist. -/
inductive FileErr where
  | notExist

/-- `os.IsNotExist`. -/
def FileErr.isNotExist : FileErr → Bool
  | .notExist => true

/-- `os.Remove`: fails with not-exist on a missing file, else removes it. -/
def osRemove (st : FSState) (fname : Bytes) : Except FileErr FSState :=
  match fsLookup st fname with
  | none => .error .notExist
  | some _ => .ok (fsEraseFile st fname)

/-- `FileSystemStore` (store.go). -/
structure FileSystemStore where
  root : Bytes
  maxFileSize : Int

/-- The byte string `"session_"` (the `sessionFilePrefix` constant). -/
def sessionFileNamePre : Bytes := [115, 101, 115, 115, 105, 111, 110, 95]

/-- `fs.fileName`: `filepath.Clean(filepath.Join(root, "session_"+id))`,
modelled as concatenation with one separator (no path normalization is
needed for the properties below). -/
def FileSystemStore.fileName (fs : FileSystemStore) (id : Bytes) : Bytes :=
  fs.root ++ 47 :: (sessionFileNamePre ++ id)

/-- `fs.delete`: `os.Remove`, ignoring the not-exist error. -/
def FileSystemStore.deleteFile (fs : FileSystemStore) (st : FSState) (fname : Bytes) :
    Except Err FSState :=
  match osRemove st fname with
  | .ok st2 => .ok st2
  | .error e => if e.isNotExist then .ok st else .error .removeFailed

/-- `fs.write`: refuse contents beyond `maxFileSize` when that is positive,
else store the file (`os.WriteFile` assumed to succeed). -/
def FileSystemStore.writeFile (fs : FileSystemStore) (st : FSState) (fname data : Bytes) :
    Except Err FSState :=
  if fs.maxFileSize > 0 ∧ (data.length : Int) > fs.maxFileSize then .error .encodedLengthTooLong
  else .ok (fsSetFile st fname data)

/-- The base32 standard alphabet `A..Z 2..7`. -/
def base32Alphabet : Bytes :=
  [65, 66, 67, 68, 69, 70, 71, 72, 73, 74, 75, 76, 77, 78, 79, 80, 81, 82, 83,
   84, 85, 86, 87, 88, 89, 90, 50, 51, 52, 53, 54, 55]

/-- The eight bits of a byte, most significant first. -/
def byteToBits (b : Nat) : List Bool :=
  [decide (b / 128 % 2 = 1), decide (b / 64 % 2 = 1), decide (b / 32 % 2 = 1),
   decide (b / 16 % 2 = 1), decide (b / 8 % 2 = 1), decide (b / 4 % 2 = 1),
   decide (b / 2 % 2 = 1), decide (b % 2 = 1)]

/-- Value of a bit string, most significant first. -/
def bitsToNat (l : List Bool) : Nat :=
  l.foldl (fun a b => a * 2 + if b then 1 else 0) 0

/-- Split a bit string into 5-bit groups, zero-padding the last group. -/
def chunk5 : List Bool → List Nat
  | [] => []
  | x :: rest =>
      bitsToNat ((x :: rest).take 5 ++ List.replicate (5 - (x :: rest).length) false)
        :: chunk5 ((x :: rest).drop 5)
termination_by l => l.length
decreasing_by
  simp [List.length_drop]
  omega

/-- `base32.StdEncoding.WithPadding(base32.NoPadding)` encoding. -/
def base32encode (data : Bytes) : Bytes :=
  (chunk5 ((data.map byteToBits).flatten)).map (fun n => base32Alphabet.getD n 0)

/-- `randomID` (store.go): read `length` random bytes and base32 them —
but a failed random read yields the EMPTY string, not an error. -/
def randomID (rand : Nat → Option Bytes) (length : Nat) : Bytes :=
  match rand length with
  | none => []
  | some k => base32encode k

/-- `FileSystemStore.Save` (store.go): a non-positive max-age deletes the
record and expires the cookie; otherwise generate an ID if absent, encode and
persist the value, then encode the ID and write it as the cookie. The random
source and the clock are passed explicitly; the result is the written cookie
(or error), the resulting proxy, and the resulting filesystem. -/
def FileSystemStore.Save {β : Type} (fs : FileSystemStore) (st : FSState)
    (rand : Nat → Option Bytes) (now : Int) (sp : SessionProxy (GoAny β)) :
    Except Err Cookie × SessionProxy (GoAny β) × FSState :=
  if sp.MaxAge ≤ 0 then
    match fs.deleteFile st (fs.fileName sp.ID) with
    | .error e => (.error e, sp, st)
    | .ok st2 =>
        let r := SessionProxy.Delete sp
        (r.1, r.2, st2)
  else
    let sp1 := if sp.ID = [] then { sp with ID := randomID rand 32 } else sp
    match SessionProxy.Encode sp1 sp1.Values with
    | .error e => (.error e, sp1, st)
    | .ok value =>
        match fs.writeFile st (fs.fileName sp1.ID) value with
        | .error e => (.error e, sp1, st)
        | .ok st2 =>
            match SessionProxy.Encode sp1 (GoAny.ofString sp1.ID) with
            | .error e => (.error e, sp1, st2)
            | .ok idEnc =>
                let r := SessionProxy.Save sp1 idEnc now
                (r.1, r.2, st2)

/-- C9. `FileSystemStore.Save` on a proxy whose cookie max-age is zero or
negative removes the backing record (succeeding also when no record exists),
writes the immediately-expiring empty cookie, and leaves the proxy untouched
— no value is encoded or persisted and no ID is generated, the outcome being
independent of the codecs and of the random source. -/
theorem claim_C9_delete_on_save {β : Type} (fs : FileSystemStore) (st : FSState)
    (rand : Nat → Option Bytes) (now : Int) (sp : SessionProxy (GoAny β))
    (hresp : sp.hasResp = true) (hma : sp.options.maxAge ≤ 0) :
    FileSystemStore.Save fs st rand now sp
      = (.ok (expiredCookie sp.options), sp,
          if fsLookup st (fs.fileName sp.ID) = none then st
          else fsEraseFile st (fs.fileName sp.ID)) := by
  have hma2 : sp.MaxAge ≤ 0 := by
    rw [SessionProxy.MaxAge]
    exact hma
  have hnef : ¬(sp.hasResp = false) := by
    rw [hresp]
    simp
  rw [FileSystemStore.Save, if_pos hma2, FileSystemStore.deleteFile, osRemove]
  cases hl : fsLookup st (fs.fileName sp.ID) with
  | none => simp [SessionProxy.Delete, hnef, FileErr.isNotExist]
  | some d => simp [SessionProxy.Delete, hnef]

/-- Cookie options with a negative max-age for the C9 witness. -/
def c9OptsW : CookieOpts := { optsW with maxAge := -1 }

/-- Proxy for the C9 witness: existing ID, response writer present, no codecs
(the delete path must not need any). -/
def c9ProxyW : SessionProxy (GoAny Unit) :=
  { ID := [105, 100], Values := .ofVal (), IsNew := false, hasResp := true,
    codecs := [], options := c9OptsW }

/-- Store for the store-level witnesses. -/
def c9StoreW : FileSystemStore := { root := [114], maxFileSize := 0 }

/-- C9 witness: saving an expired session removes its record and writes the
expiring cookie, the proxy unchanged. -/
theorem claim_C9_delete_on_save_witness :
    FileSystemStore.Save c9StoreW [(c9StoreW.fileName [105, 100], [1])]
        (fun _ => none) 0 c9ProxyW
      = (.ok (expiredCookie c9ProxyW.options), c9ProxyW,
          if fsLookup [(c9StoreW.fileName [105, 100], [1])] (c9StoreW.fileName c9ProxyW.ID)
              = none
          then [(c9StoreW.fileName [105, 100], [1])]
          else fsEraseFile [(c9StoreW.fileName [105, 100], [1])]
            (c9StoreW.fileName c9ProxyW.ID)) :=
  claim_C9_delete_on_save c9StoreW _ (fun _ => none) 0 c9ProxyW rfl
    (by norm_num [c9ProxyW, c9OptsW, optsW])

/-- Stub codec for the C5 witness. -/
def c5StubCodec : CodecI (GoAny Unit) :=
  { enc := fun _ _ => .ok [65], dec := fun _ _ d => .ok d }

/-- Proxy for C5: empty ID, positive max-age, response writer present. -/
def c5ProxyW : SessionProxy (GoAny Unit) :=
  { ID := [], Values := .ofVal (), IsNew := true, hasResp := true,
    codecs := [c5StubCodec], options := optsW }

/-- A random source whose reads always fail. -/
def randFailW : Nat → Option Bytes := fun _ => none

/-- The witness codec with an AES-sized block cipher configured. -/
def c5BlockCodecW : codec Nat :=
  { cW with block := some { blockSize := 16, keystream := fun _ _ => 0 } }

/-- C5. Evaluated at a failing random source: (1) IV generation failure does
make `codec.Encode` fail with the joined `ErrGeneratingIV`; but (2) `randomID`
returns the empty string instead of an error, and `FileSystemStore.Save` with
an empty proxy ID then proceeds — it persists the record under the empty
identifier and reports success — rather than failing as the claim and the
spec require. -/
theorem claim_C5_randomness_failure :
    c5BlockCodecW.Encode c2NameW 5 = .error (.join [.generatingIV, .randReadFailed]) ∧
    randomID randFailW 32 = [] ∧
    (FileSystemStore.Save c9StoreW [] randFailW 0 c5ProxyW).1
      = .ok { name := optsW.name, value := [65], path := optsW.path, domain := optsW.domain,
              maxAge := 3600, expires := 3600, secure := false, httpOnly := true,
              partitioned := false, sameSite := 0 } ∧
    ((FileSystemStore.Save c9StoreW [] randFailW 0 c5ProxyW).2.1).ID = [] ∧
    (FileSystemStore.Save c9StoreW [] randFailW 0 c5ProxyW).2.2
      = [(c9StoreW.fileName [], [65])] :=
  ⟨rfl, rfl, rfl, rfl, rfl⟩
